import Mathlib

/-!
# Visualizer_Commons.h : the blocking serial line reader

A shallow embedding of `readToBuf`, `readToBufComplete`, `readChar` and
`readUInt` from `src/Visualizer_Commons.h`, followed by the properties of the
buffered read loop.

Modelling decisions.

* A C `char` received from the serial line is a byte, `Fin 256`.
* `BUF_SIZE` is a macro defined by the including sketch; it is a parameter.
* `bufInput` is declared by the including sketch. Its cells are addressed by
  the (signed) index relative to the start of the array, so the array proper
  is the cells `0 .. BUF_SIZE - 1`; that no write ever leaves this range is a
  theorem about the loop, not an assumption of the model.
* `Master` is the serial source: the list of bytes that will arrive, in
  order. `Master.available()` is true when the list is non-empty and
  `Master.read()` removes its head. On an empty source the busy-wait
  `while (!Master.available());` never ends: `Fault.blocked`.
* `int` values (`bufIdx`, the result of `readUInt`) are mathematical
  integers; the width of `int` is the parameter `INT_BITS` where the result of
  `atoi` has to fit.
-/

namespace Visualizer

/-- A C `char` as it arrives on the serial line. -/
abbrev Byte := Fin 256

/-- The macro `DELIM_CHAR`: the space character. -/
def DELIM_CHAR : Byte := 32

/-- The global state the reader works on: the buffer `bufInput`, the serial
source `Master` (bytes still to arrive) and the level of the busy indicator
`LED_PIN` (`true` is `HIGH`). -/
structure Globals where
  bufInput : Int → Byte
  Master : List Byte
  ledPin : Bool

/-- The two variables `readToBuf` receives by pointer. -/
structure Frame where
  isComplete : Bool
  bufIdx : Int
deriving DecidableEq, Repr

/-- Ways in which a call does not return. `blocked`: the busy-wait on
`Master.available()` spins forever because no byte arrives any more.
`fuel`: the iteration bound of the model of the `while` loop was reached. -/
inductive Fault where
  | blocked
  | fuel
deriving DecidableEq, Repr

instance instDecidableEqExcept {ε α : Type} [DecidableEq ε] [DecidableEq α] :
    DecidableEq (Except ε α)
  | .ok a, .ok b => if h : a = b then isTrue (by rw [h]) else isFalse (fun e => h (by cases e; rfl))
  | .error a, .error b =>
    if h : a = b then isTrue (by rw [h]) else isFalse (fun e => h (by cases e; rfl))
  | .ok _, .error _ => isFalse (fun e => by cases e)
  | .error _, .ok _ => isFalse (fun e => by cases e)

/-- The function `readToBuf(bool *isComplete, int *bufIdx)`. The result holds
the returned `bool`, the new values of `*isComplete` and `*bufIdx`, and the
new global state. -/
def readToBuf (BUF_SIZE : Nat) (f : Frame) (g : Globals) :
    Except Fault (Bool × Frame × Globals) :=
  if f.bufIdx ≥ (BUF_SIZE : Int) then .ok (false, f, g)
  else if f.isComplete then .ok (false, f, g)
  else
    match g.Master with
    | [] => .error Fault.blocked
    | b :: rest =>
      if b = DELIM_CHAR then
        .ok (true, { isComplete := true, bufIdx := f.bufIdx + 1 },
          { bufInput := Function.update g.bufInput f.bufIdx 0, Master := rest, ledPin := false })
      else
        .ok (true, { isComplete := f.isComplete, bufIdx := f.bufIdx + 1 },
          { bufInput := Function.update g.bufInput f.bufIdx b, Master := rest, ledPin := false })

/-- The loop `while (!isComplete) { if (!readToBuf(..)) return false; }`
followed by `return isComplete;`, with an iteration bound. The result holds
the returned `bool`, the final values of the two locals and the global
state. -/
def readToBufLoop (BUF_SIZE : Nat) : Nat → Frame → Globals →
    Except Fault (Bool × Frame × Globals)
  | fuel, f, g =>
    if f.isComplete then .ok (f.isComplete, f, g)
    else
      match fuel with
      | 0 => .error Fault.fuel
      | n + 1 =>
        match readToBuf BUF_SIZE f g with
        | .error e => .error e
        | .ok (false, f1, g1) => .ok (false, f1, g1)
        | .ok (true, f1, g1) => readToBufLoop BUF_SIZE n f1 g1

/-- The function `readToBufComplete()`: the locals start as
`isComplete = false`, `bufIdx = 0`. The loop body runs at most
`BUF_SIZE + 1` times (`BUF_SIZE` successful calls of `readToBuf` and one
failing call), which is the bound given to the loop. -/
def readToBufComplete (BUF_SIZE : Nat) (g : Globals) : Except Fault (Bool × Globals) :=
  match readToBufLoop BUF_SIZE (BUF_SIZE + 1) { isComplete := false, bufIdx := 0 } g with
  | .error e => .error e
  | .ok (r, _, g1) => .ok (r, g1)

/-- The function `readChar()`. -/
def readChar (BUF_SIZE : Nat) (g : Globals) : Except Fault (Byte × Globals) :=
  match readToBufComplete BUF_SIZE g with
  | .error e => .error e
  | .ok (false, g1) => .ok (0, g1)
  | .ok (true, g1) => .ok (g1.bufInput 0, g1)

/-- The C library predicate `isspace` in the "C" locale: space, `\t`, `\n`,
`\v`, `\f`, `\r`. -/
def isspace (c : Byte) : Bool := c.val = 32 || (9 ≤ c.val && c.val ≤ 13)

/-- The C library predicate `isdigit`: `'0' .. '9'`. -/
def isdigit (c : Byte) : Bool := 48 ≤ c.val && c.val ≤ 57

/-- The digit loop of decimal parsing: accumulate digits until the first
byte that is not a digit. -/
def atoiDigits : Int → List Byte → Int
  | acc, [] => acc
  | acc, c :: cs =>
    if isdigit c then atoiDigits (acc * 10 + ((c.val : Int) - 48)) cs else acc

/-- Conversion of a mathematical integer to an `int` of `INT_BITS` bits
(two's complement); the identity on values that fit. -/
def wrapInt (INT_BITS : Nat) (v : Int) : Int :=
  (v + 2 ^ (INT_BITS - 1)) % (2 * 2 ^ (INT_BITS - 1)) - 2 ^ (INT_BITS - 1)

/-- Modelled from the spec: `atoi` is the C library function, not part of
the source file. The spec has it parse "the null-terminated buffer as a
decimal integer (non-numeric content parses as 0, per standard
decimal-parsing rules)": leading white space is skipped, one optional sign
is read, then decimal digits up to the first byte that is not a digit. -/
def atoi (INT_BITS : Nat) (s : List Byte) : Int :=
  match s.dropWhile isspace with
  | [] => 0
  | c :: cs =>
    if c = 45 then wrapInt INT_BITS (-(atoiDigits 0 cs))
    else if c = 43 then wrapInt INT_BITS (atoiDigits 0 cs)
    else wrapInt INT_BITS (atoiDigits 0 (c :: cs))

/-- The bytes of the C string that starts at cell `k`: the cells are read
one by one up to, and without, the first null byte; at most `n` cells are
read. -/
def cStringAt (buf : Int → Byte) : Int → Nat → List Byte
  | _, 0 => []
  | k, n + 1 => if buf k = 0 then [] else buf k :: cStringAt buf (k + 1) n

/-- The C string that `atoi(bufInput)` reads: it starts at `bufInput[0]` and
lies within the `BUF_SIZE` cells of the array. -/
def cString (BUF_SIZE : Nat) (buf : Int → Byte) : List Byte :=
  cStringAt buf 0 BUF_SIZE

/-- The function `readUInt()`. -/
def readUInt (BUF_SIZE INT_BITS : Nat) (g : Globals) : Except Fault (Int × Globals) :=
  match readToBufComplete BUF_SIZE g with
  | .error e => .error e
  | .ok (false, g1) => .ok (-1, g1)
  | .ok (true, g1) => .ok (atoi INT_BITS (cString BUF_SIZE g1.bufInput), g1)

/-- What a call returned, without the state it left behind. -/
def returned {α σ : Type} (r : Except Fault (α × σ)) : Except Fault α :=
  match r with
  | .error e => .error e
  | .ok (a, _) => .ok a

/-- The buffer after the bytes of `w` have been stored from cell `k` on. -/
def storeBytes (buf : Int → Byte) : Int → List Byte → Int → Byte
  | _, [] => buf
  | k, c :: w => storeBytes (Function.update buf k c) (k + 1) w

/-- The buffer after a line has been stored from cell `k` on: the bytes of
`w`, then the null byte that takes the place of the delimiter. -/
def storeLine (buf : Int → Byte) (k : Int) (w : List Byte) : Int → Byte :=
  Function.update (storeBytes buf k w) (k + w.length) 0

/-- The states of the two locals and of the globals that occur during
`readToBufComplete` started on the global state `g0`: the locals start as
`isComplete = false`, `bufIdx = 0`, and every further state is what a call of
`readToBuf` leaves behind. -/
inductive Reachable (BUF_SIZE : Nat) (g0 : Globals) : Frame → Globals → Prop where
  | init : Reachable BUF_SIZE g0 { isComplete := false, bufIdx := 0 } g0
  | step {f : Frame} {g : Globals} {r : Bool} {f1 : Frame} {g1 : Globals} :
      Reachable BUF_SIZE g0 f g → readToBuf BUF_SIZE f g = .ok (r, f1, g1) →
      Reachable BUF_SIZE g0 f1 g1

/-- The numeric value of a string of decimal digits, most significant digit
first. -/
def decimalValue (d : List Byte) : Nat :=
  d.foldl (fun v c => 10 * v + (c.val - 48)) 0

/-! ## One call of `readToBuf` -/

theorem readToBuf_byte (BUF_SIZE : Nat) (k : Int) (buf : Int → Byte) (b : Byte)
    (rest : List Byte) (led : Bool) (hk : k < BUF_SIZE) (hb : b ≠ DELIM_CHAR) :
    readToBuf BUF_SIZE { isComplete := false, bufIdx := k }
        { bufInput := buf, Master := b :: rest, ledPin := led }
      = .ok (true, { isComplete := false, bufIdx := k + 1 },
          { bufInput := Function.update buf k b, Master := rest, ledPin := false }) := by
  simp [readToBuf, hk, hb]

theorem readToBuf_delim (BUF_SIZE : Nat) (k : Int) (buf : Int → Byte)
    (rest : List Byte) (led : Bool) (hk : k < BUF_SIZE) :
    readToBuf BUF_SIZE { isComplete := false, bufIdx := k }
        { bufInput := buf, Master := DELIM_CHAR :: rest, ledPin := led }
      = .ok (true, { isComplete := true, bufIdx := k + 1 },
          { bufInput := Function.update buf k 0, Master := rest, ledPin := false }) := by
  simp [readToBuf, hk]

theorem readToBuf_full (BUF_SIZE : Nat) (f : Frame) (g : Globals)
    (hk : (BUF_SIZE : Int) ≤ f.bufIdx) :
    readToBuf BUF_SIZE f g = .ok (false, f, g) := by
  simp [readToBuf, hk]

theorem readToBufLoop_done (BUF_SIZE fuel : Nat) (k : Int) (g : Globals) :
    readToBufLoop BUF_SIZE fuel { isComplete := true, bufIdx := k } g
      = .ok (true, { isComplete := true, bufIdx := k }, g) := by
  cases fuel <;> simp [readToBufLoop]

/-! ## The stored bytes -/

theorem storeBytes_below (w : List Byte) (buf : Int → Byte) (k j : Int) (hj : j < k) :
    storeBytes buf k w j = buf j := by
  induction w generalizing buf k with
  | nil => rfl
  | cons c w ih =>
    rw [storeBytes, ih _ _ (by omega), Function.update_noteq (by omega)]

theorem storeBytes_above (w : List Byte) (buf : Int → Byte) (k j : Int)
    (hj : k + w.length ≤ j) : storeBytes buf k w j = buf j := by
  induction w generalizing buf k with
  | nil => rfl
  | cons c w ih =>
    simp only [List.length_cons, Nat.cast_add, Nat.cast_one] at hj
    rw [storeBytes, ih _ _ (by omega), Function.update_noteq (by omega)]

theorem storeBytes_get (w : List Byte) (buf : Int → Byte) (k : Int) (i : Nat)
    (hi : i < w.length) : storeBytes buf k w (k + i) = w[i] := by
  induction w generalizing buf k i with
  | nil => simp at hi
  | cons c w ih =>
    cases i with
    | zero =>
      simp only [storeBytes, Nat.cast_zero, add_zero, List.getElem_cons_zero]
      rw [storeBytes_below _ _ _ _ (by omega), Function.update_same]
    | succ i =>
      simp only [List.length_cons, Nat.add_lt_add_iff_right] at hi
      have h := ih (Function.update buf k c) (k + 1) i hi
      simp only [storeBytes, List.getElem_cons_succ, Nat.cast_add, Nat.cast_one]
      rw [← h]
      congr 1
      omega

theorem storeLine_get (w : List Byte) (buf : Int → Byte) (k : Int) (i : Nat)
    (hi : i < w.length) : storeLine buf k w (k + i) = w[i] := by
  rw [storeLine, Function.update_noteq (by omega), storeBytes_get w buf k i hi]

theorem storeLine_end (w : List Byte) (buf : Int → Byte) (k : Int) :
    storeLine buf k w (k + w.length) = 0 := by
  rw [storeLine, Function.update_same]

theorem storeLine_cons (c : Byte) (w : List Byte) (buf : Int → Byte) (k : Int) :
    storeLine buf k (c :: w) = storeLine (Function.update buf k c) (k + 1) w := by
  simp only [storeLine, storeBytes, List.length_cons, Nat.cast_add, Nat.cast_one]
  have h : k + 1 + (w.length : Int) = k + ((w.length : Int) + 1) := by omega
  rw [h]

/-! ## The loop on a line and on an overflowing stream -/

theorem readToBufLoop_line (BUF_SIZE : Nat) (w rest : List Byte) (hw : DELIM_CHAR ∉ w) :
    ∀ (fuel : Nat) (k : Int) (buf : Int → Byte) (led : Bool),
      w.length < fuel → k + w.length < BUF_SIZE →
      readToBufLoop BUF_SIZE fuel { isComplete := false, bufIdx := k }
          { bufInput := buf, Master := w ++ DELIM_CHAR :: rest, ledPin := led }
        = .ok (true, { isComplete := true, bufIdx := k + w.length + 1 },
            { bufInput := storeLine buf k w, Master := rest, ledPin := false }) := by
  induction w with
  | nil =>
    intro fuel k buf led hf hk
    obtain ⟨n, rfl⟩ : ∃ n, fuel = n + 1 := ⟨fuel - 1, by simp at hf; omega⟩
    simp only [List.length_nil, Nat.cast_zero, add_zero] at hk
    rw [readToBufLoop]
    simp only [List.nil_append, Bool.false_eq_true, if_false]
    rw [readToBuf_delim BUF_SIZE k buf rest led hk]
    simp only
    rw [readToBufLoop_done]
    simp [storeLine, storeBytes]
  | cons c w ih =>
    intro fuel k buf led hf hk
    simp only [List.length_cons, Nat.cast_add, Nat.cast_one] at hf hk
    obtain ⟨n, rfl⟩ : ∃ n, fuel = n + 1 := ⟨fuel - 1, by omega⟩
    have hc : c ≠ DELIM_CHAR := fun h => hw (by simp [h])
    have hw1 : DELIM_CHAR ∉ w := fun h => hw (by simp [h])
    rw [readToBufLoop]
    simp only [List.cons_append, Bool.false_eq_true, if_false]
    rw [readToBuf_byte BUF_SIZE k buf c _ led (by omega) hc]
    simp only
    rw [ih hw1 n (k + 1) _ false (by omega) (by omega), storeLine_cons]
    simp only [List.length_cons, Nat.cast_add, Nat.cast_one]
    congr 4
    omega

theorem readToBufLoop_overflow (BUF_SIZE : Nat) (w rest : List Byte) (hw : DELIM_CHAR ∉ w) :
    ∀ (fuel : Nat) (k : Int) (buf : Int → Byte) (led : Bool),
      w.length < fuel → k + w.length = BUF_SIZE →
      ∃ led1, readToBufLoop BUF_SIZE fuel { isComplete := false, bufIdx := k }
          { bufInput := buf, Master := w ++ rest, ledPin := led }
        = .ok (false, { isComplete := false, bufIdx := BUF_SIZE },
            { bufInput := storeBytes buf k w, Master := rest, ledPin := led1 }) := by
  induction w with
  | nil =>
    intro fuel k buf led hf hk
    obtain ⟨n, rfl⟩ : ∃ n, fuel = n + 1 := ⟨fuel - 1, by simp at hf; omega⟩
    simp only [List.length_nil, Nat.cast_zero, add_zero] at hk
    refine ⟨led, ?_⟩
    rw [readToBufLoop]
    simp only [List.nil_append, Bool.false_eq_true, if_false]
    rw [readToBuf_full BUF_SIZE _ _ (by simp [hk])]
    simp [storeBytes, hk]
  | cons c w ih =>
    intro fuel k buf led hf hk
    simp only [List.length_cons, Nat.cast_add, Nat.cast_one] at hf hk
    obtain ⟨n, rfl⟩ : ∃ n, fuel = n + 1 := ⟨fuel - 1, by omega⟩
    have hc : c ≠ DELIM_CHAR := fun h => hw (by simp [h])
    have hw1 : DELIM_CHAR ∉ w := fun h => hw (by simp [h])
    obtain ⟨led1, h1⟩ := ih hw1 n (k + 1) (Function.update buf k c) false (by omega) (by omega)
    refine ⟨led1, ?_⟩
    rw [readToBufLoop]
    simp only [List.cons_append, Bool.false_eq_true, if_false]
    rw [readToBuf_byte BUF_SIZE k buf c _ led (by omega) hc]
    simp only
    rw [h1, storeBytes]

/-! ## `readToBufComplete` on a line and on an overflowing stream -/

theorem complete_on_line (BUF_SIZE : Nat) (w rest : List Byte) (buf : Int → Byte)
    (led : Bool) (hw : DELIM_CHAR ∉ w) (hn : w.length < BUF_SIZE) :
    readToBufComplete BUF_SIZE
        { bufInput := buf, Master := w ++ DELIM_CHAR :: rest, ledPin := led }
      = .ok (true, { bufInput := storeLine buf 0 w, Master := rest, ledPin := false }) := by
  rw [readToBufComplete,
    readToBufLoop_line BUF_SIZE w rest hw (BUF_SIZE + 1) 0 buf led (by omega) (by omega)]

theorem complete_on_overflow (BUF_SIZE : Nat) (w rest : List Byte)
    (buf : Int → Byte) (led : Bool) (hw : DELIM_CHAR ∉ w) (hn : w.length = BUF_SIZE) :
    ∃ led1, readToBufComplete BUF_SIZE { bufInput := buf, Master := w ++ rest, ledPin := led }
      = .ok (false, { bufInput := storeBytes buf 0 w, Master := rest, ledPin := led1 }) := by
  obtain ⟨led1, h⟩ :=
    readToBufLoop_overflow BUF_SIZE w rest hw (BUF_SIZE + 1) 0 buf led (by omega) (by omega)
  exact ⟨led1, by rw [readToBufComplete, h]⟩

/-- C1: a line `w` without delimiter and shorter than `BUF_SIZE`, followed by
the delimiter and by any continuation, is read successfully from any initial
buffer: `readToBufComplete` returns `true`, and afterwards `bufInput[i] = w[i]`
for every `i < n` and `bufInput[n]` is the null byte, `n` the length of `w`. -/
theorem readToBufComplete_line (BUF_SIZE : Nat) (w rest : List Byte) (buf : Int → Byte)
    (led : Bool) (hw : DELIM_CHAR ∉ w) (hn : w.length < BUF_SIZE) :
    ∃ g1, readToBufComplete BUF_SIZE
          { bufInput := buf, Master := w ++ [DELIM_CHAR] ++ rest, ledPin := led }
        = .ok (true, g1)
      ∧ (∀ (i : Nat) (hi : i < w.length), g1.bufInput i = w[i])
      ∧ g1.bufInput w.length = 0 := by
  refine ⟨{ bufInput := storeLine buf 0 w, Master := rest, ledPin := false }, ?_, ?_, ?_⟩
  · rw [List.append_assoc, List.singleton_append]
    exact complete_on_line BUF_SIZE w rest buf led hw hn
  · intro i hi
    have h := storeLine_get w buf 0 i hi
    simpa using h
  · have h := storeLine_end w buf 0
    simpa using h

theorem readToBufComplete_line_witness :
    DELIM_CHAR ∉ ([53, 54, 55] : List Byte) ∧ ([53, 54, 55] : List Byte).length < 4
      ∧ ∃ g1, readToBufComplete 4
            { bufInput := fun _ => 9, Master := [53, 54, 55] ++ [DELIM_CHAR] ++ [65],
              ledPin := true }
          = .ok (true, g1)
        ∧ (∀ (i : Nat) (hi : i < ([53, 54, 55] : List Byte).length),
            g1.bufInput i = ([53, 54, 55] : List Byte)[i])
        ∧ g1.bufInput ([53, 54, 55] : List Byte).length = 0 :=
  ⟨by decide, by decide,
    readToBufComplete_line 4 [53, 54, 55] [65] (fun _ => 9) true (by decide) (by decide)⟩

/-- C2: when the first `BUF_SIZE` bytes of the stream contain no delimiter (in
particular when the input is exactly `BUF_SIZE` bytes without delimiter),
`readToBufComplete` returns `false`. -/
theorem readToBufComplete_overflow (BUF_SIZE : Nat) (w rest : List Byte) (buf : Int → Byte)
    (led : Bool) (hw : DELIM_CHAR ∉ w) (hn : w.length = BUF_SIZE) :
    returned (readToBufComplete BUF_SIZE
      { bufInput := buf, Master := w ++ rest, ledPin := led }) = .ok false := by
  obtain ⟨led1, h⟩ := complete_on_overflow BUF_SIZE w rest buf led hw hn
  rw [h, returned]

theorem readToBufComplete_overflow_witness :
    DELIM_CHAR ∉ ([65, 66, 67, 68] : List Byte) ∧ ([65, 66, 67, 68] : List Byte).length = 4
      ∧ returned (readToBufComplete 4
          { bufInput := fun _ => 0, Master := [65, 66, 67, 68] ++ [], ledPin := false })
        = .ok false :=
  ⟨by decide, by decide,
    readToBufComplete_overflow 4 [65, 66, 67, 68] [] (fun _ => 0) false (by decide) (by decide)⟩

/-- C3: when the first byte `b` of the stream is not the delimiter and the
first delimiter lies among the first `BUF_SIZE` bytes, `readChar` returns `b`,
whatever the buffer held before the call. -/
theorem readChar_first (BUF_SIZE : Nat) (b : Byte) (w rest : List Byte) (buf : Int → Byte)
    (led : Bool) (hb : b ≠ DELIM_CHAR) (hw : DELIM_CHAR ∉ w)
    (hn : (b :: w).length < BUF_SIZE) :
    returned (readChar BUF_SIZE
      { bufInput := buf, Master := (b :: w) ++ DELIM_CHAR :: rest, ledPin := led }) = .ok b := by
  have hbw : DELIM_CHAR ∉ b :: w := by
    intro h
    rcases List.mem_cons.mp h with h | h
    · exact hb h.symm
    · exact hw h
  rw [readChar, complete_on_line BUF_SIZE (b :: w) rest buf led hbw hn]
  have h := storeLine_get (b :: w) buf 0 0 (by simp)
  simp only [Nat.cast_zero, add_zero, List.getElem_cons_zero] at h
  simp only [returned, h]

theorem readChar_first_witness :
    (53 : Byte) ≠ DELIM_CHAR ∧ DELIM_CHAR ∉ ([] : List Byte)
      ∧ ((53 : Byte) :: []).length < 2
      ∧ returned (readChar 2
          { bufInput := fun _ => 0, Master := ((53 : Byte) :: []) ++ DELIM_CHAR :: [],
            ledPin := false }) = .ok 53 :=
  ⟨by decide, by decide, by decide,
    readChar_first 2 53 [] [] (fun _ => 0) false (by decide) (by decide) (by decide)⟩

/-! ## The C string in the buffer and its decimal value -/

theorem storeLine_below (w : List Byte) (buf : Int → Byte) (k j : Int) (hj : j < k) :
    storeLine buf k w j = buf j := by
  rw [storeLine, Function.update_noteq (by omega), storeBytes_below w buf k j hj]

theorem cStringAt_storeLine (w : List Byte) :
    ∀ (buf : Int → Byte) (k : Int) (n : Nat), w.length < n →
      cStringAt (storeLine buf k w) k n = w.takeWhile (fun c => c ≠ 0) := by
  induction w with
  | nil =>
    intro buf k n hn
    obtain ⟨m, rfl⟩ : ∃ m, n = m + 1 := ⟨n - 1, by simp at hn; omega⟩
    have h := storeLine_end [] buf k
    simp only [List.length_nil, Nat.cast_zero, add_zero] at h
    simp [cStringAt, h]
  | cons c w ih =>
    intro buf k n hn
    simp only [List.length_cons] at hn
    obtain ⟨m, rfl⟩ : ∃ m, n = m + 1 := ⟨n - 1, by omega⟩
    have h : storeLine buf k (c :: w) k = c := by
      rw [storeLine_cons, storeLine_below _ _ _ _ (by omega), Function.update_same]
    rw [cStringAt, h]
    by_cases hc : c = 0
    · simp [hc]
    · rw [storeLine_cons, ih _ _ m (by omega)]
      simp [hc]

theorem wrapInt_fits (INT_BITS : Nat) (v : Int) (h0 : 0 ≤ v) (hv : v < 2 ^ (INT_BITS - 1)) :
    wrapInt INT_BITS v = v := by
  have hp : (0 : Int) < 2 ^ (INT_BITS - 1) := by positivity
  rw [wrapInt, Int.emod_eq_of_lt (by omega) (by omega)]
  omega

theorem atoiDigits_digits (d : List Byte) (hd : ∀ c ∈ d, isdigit c = true) :
    ∀ acc : Nat, atoiDigits (acc : Int) d
      = ((d.foldl (fun v c => 10 * v + (c.val - 48)) acc : Nat) : Int) := by
  induction d with
  | nil => intro acc; rfl
  | cons c cs ih =>
    intro acc
    have hc : isdigit c = true := hd c (by simp)
    have h48 : 48 ≤ c.val := by
      simp only [isdigit, Bool.and_eq_true, decide_eq_true_eq] at hc
      exact hc.1
    have hcast : (acc : Int) * 10 + ((c.val : Int) - 48) = ((10 * acc + (c.val - 48) : Nat) : Int) := by
      omega
    rw [atoiDigits, if_pos hc, hcast, ih (fun x hx => hd x (by simp [hx])), List.foldl_cons]

theorem atoi_digits (INT_BITS : Nat) (d : List Byte) (hne : d ≠ [])
    (hd : ∀ c ∈ d, isdigit c = true) (hv : (decimalValue d : Int) < 2 ^ (INT_BITS - 1)) :
    atoi INT_BITS d = decimalValue d := by
  obtain ⟨c, cs, rfl⟩ := List.exists_cons_of_ne_nil hne
  have hc : isdigit c = true := hd c (by simp)
  simp only [isdigit, Bool.and_eq_true, decide_eq_true_eq] at hc
  have hsp : isspace c = false := by
    simp only [isspace, Bool.or_eq_false_iff, decide_eq_false_iff_not, Bool.and_eq_false_imp,
      decide_eq_true_eq]
    omega
  have h45 : c ≠ 45 := by
    intro h
    rw [h] at hc
    revert hc
    decide
  have h43 : c ≠ 43 := by
    intro h
    rw [h] at hc
    revert hc
    decide
  have hval := atoiDigits_digits (c :: cs) hd 0
  simp only [Nat.cast_zero] at hval
  rw [atoi, List.dropWhile_cons_of_neg (by simp [hsp])]
  simp only [h45, h43, if_false]
  rw [hval]
  exact wrapInt_fits INT_BITS _ (by positivity) hv

theorem atoi_nonNumeric (INT_BITS : Nat) (s : List Byte)
    (hs : ∀ c, s.head? = some c →
      isdigit c = false ∧ c ≠ 43 ∧ c ≠ 45 ∧ isspace c = false) :
    atoi INT_BITS s = 0 := by
  cases s with
  | nil => rfl
  | cons c cs =>
    obtain ⟨hd, h43, h45, hsp⟩ := hs c rfl
    rw [atoi, List.dropWhile_cons_of_neg (by simp [hsp])]
    simp only [h45, h43, if_false, atoiDigits, hd, Bool.false_eq_true]
    exact wrapInt_fits INT_BITS 0 (le_refl 0) (by positivity)

theorem digits_no_delim (d : List Byte) (hd : ∀ c ∈ d, isdigit c = true) :
    DELIM_CHAR ∉ d := by
  intro h
  have := hd _ h
  revert this
  decide

theorem digits_takeWhile (d : List Byte) (hd : ∀ c ∈ d, isdigit c = true) :
    d.takeWhile (fun c => c ≠ 0) = d := by
  rw [List.takeWhile_eq_self_iff]
  intro c hc
  have h := hd c hc
  simp only [decide_eq_true_eq]
  intro h0
  rw [h0] at h
  revert h
  decide

theorem head_takeWhile (p : Byte → Bool) (w : List Byte) (c : Byte)
    (h : (w.takeWhile p).head? = some c) : w.head? = some c := by
  cases w with
  | nil => simp at h
  | cons x xs =>
    by_cases hx : p x = true
    · rw [List.takeWhile_cons_of_pos hx] at h
      simpa using h
    · rw [List.takeWhile_cons_of_neg hx] at h
      simp at h

theorem readUInt_on_line (BUF_SIZE INT_BITS : Nat) (w rest : List Byte) (buf : Int → Byte)
    (led : Bool) (hw : DELIM_CHAR ∉ w) (hn : w.length < BUF_SIZE) :
    readUInt BUF_SIZE INT_BITS
        { bufInput := buf, Master := w ++ DELIM_CHAR :: rest, ledPin := led }
      = .ok (atoi INT_BITS (w.takeWhile (fun c => c ≠ 0)),
          { bufInput := storeLine buf 0 w, Master := rest, ledPin := false }) := by
  rw [readUInt, complete_on_line BUF_SIZE w rest buf led hw hn]
  simp only [cString]
  rw [cStringAt_storeLine w buf 0 BUF_SIZE hn]

/-- C4: for a non-empty string `d` of decimal digits, shorter than `BUF_SIZE`,
whose numeric value fits in an `int`, `readUInt` on the stream `d`,
delimiter, continuation returns the numeric value of `d`; `atoi` is standard
decimal parsing of the buffer up to its first null byte. -/
theorem readUInt_decimal (BUF_SIZE INT_BITS : Nat) (d rest : List Byte) (buf : Int → Byte)
    (led : Bool) (hne : d ≠ []) (hd : ∀ c ∈ d, isdigit c = true)
    (hn : d.length < BUF_SIZE) (hv : (decimalValue d : Int) < 2 ^ (INT_BITS - 1)) :
    returned (readUInt BUF_SIZE INT_BITS
      { bufInput := buf, Master := d ++ [DELIM_CHAR] ++ rest, ledPin := led })
      = .ok (decimalValue d : Int) := by
  rw [List.append_assoc, List.singleton_append,
    readUInt_on_line BUF_SIZE INT_BITS d rest buf led (digits_no_delim d hd) hn,
    digits_takeWhile d hd, atoi_digits INT_BITS d hne hd hv, returned]

theorem readUInt_decimal_witness :
    ([52, 50] : List Byte) ≠ [] ∧ (∀ c ∈ ([52, 50] : List Byte), isdigit c = true)
      ∧ ([52, 50] : List Byte).length < 3
      ∧ (decimalValue [52, 50] : Int) < 2 ^ (16 - 1)
      ∧ returned (readUInt 3 16
          { bufInput := fun _ => 49, Master := [52, 50] ++ [DELIM_CHAR] ++ [], ledPin := false })
        = .ok (42 : Int) :=
  ⟨by decide,
    fun c hc => by
      simp only [List.mem_cons, List.mem_singleton, List.not_mem_nil, or_false] at hc
      rcases hc with rfl | rfl <;> decide,
    by decide,
    by
      have h : decimalValue [52, 50] = 42 := by decide
      rw [h]
      norm_num,
    readUInt_decimal 3 16 [52, 50] [] (fun _ => 49) false (by decide)
      (fun c hc => by
        simp only [List.mem_cons, List.mem_singleton, List.not_mem_nil, or_false] at hc
        rcases hc with rfl | rfl <;> decide)
      (by decide)
      (by
        have h : decimalValue [52, 50] = 42 := by decide
        rw [h]
        norm_num)⟩

/-- C5: for a successfully read line (first delimiter among the first
`BUF_SIZE` bytes) whose content is not numeric, that is the line is empty or
its first byte is not a decimal digit, a sign or white space skipped by
`atoi`, `readUInt` returns 0 and signals no error. -/
theorem readUInt_nonNumeric (BUF_SIZE INT_BITS : Nat) (w rest : List Byte) (buf : Int → Byte)
    (led : Bool) (hw : DELIM_CHAR ∉ w) (hn : w.length < BUF_SIZE)
    (hfirst : ∀ c, w.head? = some c →
      isdigit c = false ∧ c ≠ 43 ∧ c ≠ 45 ∧ isspace c = false) :
    returned (readUInt BUF_SIZE INT_BITS
      { bufInput := buf, Master := w ++ [DELIM_CHAR] ++ rest, ledPin := led }) = .ok 0 := by
  rw [List.append_assoc, List.singleton_append,
    readUInt_on_line BUF_SIZE INT_BITS w rest buf led hw hn,
    atoi_nonNumeric INT_BITS _ (fun c hc => hfirst c (head_takeWhile _ w c hc)), returned]

theorem readUInt_nonNumeric_witness :
    DELIM_CHAR ∉ ([120] : List Byte) ∧ ([120] : List Byte).length < 2
      ∧ (∀ c, ([120] : List Byte).head? = some c →
          isdigit c = false ∧ c ≠ 43 ∧ c ≠ 45 ∧ isspace c = false)
      ∧ returned (readUInt 2 16
          { bufInput := fun _ => 55, Master := [120] ++ [DELIM_CHAR] ++ [], ledPin := false })
        = .ok 0 :=
  ⟨by decide, by decide,
    fun c hc => by
      simp only [List.head?_cons, Option.some.injEq] at hc
      subst hc
      decide,
    readUInt_nonNumeric 2 16 [120] [] (fun _ => 55) false (by decide) (by decide)
      (fun c hc => by
        simp only [List.head?_cons, Option.some.injEq] at hc
        subst hc
        decide)⟩

/-- C6: on buffer overflow (no delimiter among the first `BUF_SIZE` bytes of
the stream) `readChar` returns the null byte and `readUInt` returns -1,
whatever bytes were read into the buffer. -/
theorem read_overflow_sentinels (BUF_SIZE INT_BITS : Nat) (w rest : List Byte)
    (buf : Int → Byte) (led : Bool) (hw : DELIM_CHAR ∉ w) (hn : w.length = BUF_SIZE) :
    returned (readChar BUF_SIZE { bufInput := buf, Master := w ++ rest, ledPin := led })
        = .ok 0
      ∧ returned (readUInt BUF_SIZE INT_BITS
          { bufInput := buf, Master := w ++ rest, ledPin := led }) = .ok (-1) := by
  obtain ⟨led1, h⟩ := complete_on_overflow BUF_SIZE w rest buf led hw hn
  constructor
  · rw [readChar, h, returned]
  · rw [readUInt, h, returned]

theorem read_overflow_sentinels_witness :
    DELIM_CHAR ∉ ([49, 50, 51] : List Byte) ∧ ([49, 50, 51] : List Byte).length = 3
      ∧ returned (readChar 3
          { bufInput := fun _ => 0, Master := [49, 50, 51] ++ [52, 32], ledPin := false })
        = .ok 0
      ∧ returned (readUInt 3 16
          { bufInput := fun _ => 0, Master := [49, 50, 51] ++ [52, 32], ledPin := false })
        = .ok (-1) :=
  ⟨by decide, by decide,
    read_overflow_sentinels 3 16 [49, 50, 51] [52, 32] (fun _ => 0) false (by decide)
      (by decide)⟩

/-! ## The four ways a call of `readToBuf` can go -/

theorem readToBuf_cases (BUF_SIZE : Nat) (f : Frame) (g : Globals) :
    (((BUF_SIZE : Int) ≤ f.bufIdx ∨ f.isComplete = true)
        ∧ readToBuf BUF_SIZE f g = .ok (false, f, g))
    ∨ (f.bufIdx < BUF_SIZE ∧ f.isComplete = false ∧ g.Master = []
        ∧ readToBuf BUF_SIZE f g = .error Fault.blocked)
    ∨ (f.bufIdx < BUF_SIZE ∧ f.isComplete = false ∧ ∃ rest, g.Master = DELIM_CHAR :: rest
        ∧ readToBuf BUF_SIZE f g
          = .ok (true, { isComplete := true, bufIdx := f.bufIdx + 1 },
              { bufInput := Function.update g.bufInput f.bufIdx 0, Master := rest,
                ledPin := false }))
    ∨ (f.bufIdx < BUF_SIZE ∧ f.isComplete = false ∧ ∃ b rest, b ≠ DELIM_CHAR
        ∧ g.Master = b :: rest
        ∧ readToBuf BUF_SIZE f g
          = .ok (true, { isComplete := false, bufIdx := f.bufIdx + 1 },
              { bufInput := Function.update g.bufInput f.bufIdx b, Master := rest,
                ledPin := false })) := by
  by_cases hk : (BUF_SIZE : Int) ≤ f.bufIdx
  · exact Or.inl ⟨Or.inl hk, readToBuf_full BUF_SIZE f g hk⟩
  · by_cases hc : f.isComplete = true
    · refine Or.inl ⟨Or.inr hc, ?_⟩
      simp [readToBuf, hc]
    · have hc0 : f.isComplete = false := by simpa using hc
      have hlt : f.bufIdx < BUF_SIZE := by omega
      obtain ⟨c, k⟩ := f
      obtain ⟨buf, m, led⟩ := g
      simp only at hc0 hlt
      subst hc0
      cases m with
      | nil =>
        refine Or.inr (Or.inl ⟨hlt, rfl, rfl, ?_⟩)
        simp [readToBuf, hlt]
      | cons b rest =>
        by_cases hb : b = DELIM_CHAR
        · subst hb
          exact Or.inr (Or.inr (Or.inl ⟨hlt, rfl, rest, rfl,
            readToBuf_delim BUF_SIZE k buf rest led hlt⟩))
        · exact Or.inr (Or.inr (Or.inr ⟨hlt, rfl, b, rest, hb, rfl,
            readToBuf_byte BUF_SIZE k buf b rest led hlt hb⟩))

/-- C7: `readToBuf` returns `false` if and only if, at entry,
`*bufIdx >= BUF_SIZE` or `*isComplete` is true; and from every entry state
with `*bufIdx < BUF_SIZE`, `*isComplete` false and a byte available on the
source it returns `true`. -/
theorem readToBuf_false_iff (BUF_SIZE : Nat) (f : Frame) (g : Globals) :
    (returned (readToBuf BUF_SIZE f g) = .ok false
        ↔ (f.bufIdx ≥ (BUF_SIZE : Int) ∨ f.isComplete = true))
      ∧ (f.bufIdx < (BUF_SIZE : Int) → f.isComplete = false → g.Master ≠ [] →
          returned (readToBuf BUF_SIZE f g) = .ok true) := by
  rcases readToBuf_cases BUF_SIZE f g with ⟨hg, h⟩ | ⟨hk, hc, hm, h⟩ | ⟨hk, hc, rest, hm, h⟩
    | ⟨hk, hc, b, rest, hb, hm, h⟩
  · refine ⟨⟨fun _ => hg, fun _ => by rw [h, returned]⟩, ?_⟩
    intro hk hc
    rcases hg with hg | hg
    · omega
    · rw [hc] at hg
      cases hg
  · refine ⟨⟨fun hr => ?_, fun hg => ?_⟩, fun _ _ hne => absurd hm hne⟩
    · rw [h, returned] at hr
      cases hr
    · rcases hg with hg | hg
      · omega
      · rw [hc] at hg
        cases hg
  · refine ⟨⟨fun hr => ?_, fun hg => ?_⟩, fun _ _ _ => by rw [h, returned]⟩
    · rw [h, returned] at hr
      cases hr
    · rcases hg with hg | hg
      · omega
      · rw [hc] at hg
        cases hg
  · refine ⟨⟨fun hr => ?_, fun hg => ?_⟩, fun _ _ _ => by rw [h, returned]⟩
    · rw [h, returned] at hr
      cases hr
    · rcases hg with hg | hg
      · omega
      · rw [hc] at hg
        cases hg

theorem readToBuf_false_iff_witness :
    ((3 : Int) < ((4 : Nat) : Int) ∧ false = false ∧ ([32, 65] : List Byte) ≠ [])
      ∧ returned (readToBuf 4 { isComplete := false, bufIdx := 3 }
          { bufInput := fun _ => 0, Master := [32, 65], ledPin := false }) = .ok true :=
  ⟨⟨by decide, rfl, by decide⟩,
    (readToBuf_false_iff 4 { isComplete := false, bufIdx := 3 }
      { bufInput := fun _ => 0, Master := [32, 65], ledPin := false }).2
      (by decide) rfl (by decide)⟩

/-- C8: from an entry state with `0 <= *bufIdx < BUF_SIZE`, `*isComplete`
false and a non-empty source, `readToBuf` succeeds: it consumes exactly the
first byte `b` of the source, stores the null byte at `bufInput[*bufIdx]` if
`b` is the delimiter and `b` itself otherwise, sets `*isComplete` to
`b == DELIM_CHAR`, increases `*bufIdx` by exactly 1 and leaves every other
buffer cell unchanged. -/
theorem readToBuf_effect (BUF_SIZE : Nat) (f : Frame) (g : Globals) (b : Byte)
    (rest : List Byte) (_h0 : 0 ≤ f.bufIdx) (hk : f.bufIdx < (BUF_SIZE : Int))
    (hc : f.isComplete = false) (hm : g.Master = b :: rest) :
    ∃ f1 g1, readToBuf BUF_SIZE f g = .ok (true, f1, g1)
      ∧ g1.Master = rest
      ∧ g1.bufInput f.bufIdx = (if b = DELIM_CHAR then 0 else b)
      ∧ f1.isComplete = decide (b = DELIM_CHAR)
      ∧ f1.bufIdx = f.bufIdx + 1
      ∧ ∀ j : Int, j ≠ f.bufIdx → g1.bufInput j = g.bufInput j := by
  rcases readToBuf_cases BUF_SIZE f g with ⟨hg, _⟩ | ⟨_, _, hm0, _⟩ | ⟨_, _, rest1, hm1, h⟩
    | ⟨_, _, b1, rest1, hb, hm1, h⟩
  · rcases hg with hg | hg
    · omega
    · rw [hc] at hg
      cases hg
  · rw [hm] at hm0
    cases hm0
  · rw [hm] at hm1
    obtain ⟨rfl, rfl⟩ := List.cons.inj hm1
    refine ⟨_, _, h, rfl, ?_, ?_, rfl, ?_⟩
    · simp
    · simp
    · intro j hj
      exact Function.update_noteq hj _ _
  · rw [hm] at hm1
    obtain ⟨rfl, rfl⟩ := List.cons.inj hm1
    refine ⟨_, _, h, rfl, ?_, ?_, rfl, ?_⟩
    · simp [hb]
    · simp [hb]
    · intro j hj
      exact Function.update_noteq hj _ _

theorem readToBuf_effect_witness :
    (0 : Int) ≤ 1 ∧ (1 : Int) < ((4 : Nat) : Int) ∧ false = false
      ∧ ([32, 65] : List Byte) = 32 :: [65]
      ∧ ∃ f1 g1, readToBuf 4 { isComplete := false, bufIdx := 1 }
            { bufInput := fun _ => 7, Master := [32, 65], ledPin := true }
          = .ok (true, f1, g1)
        ∧ g1.Master = [65]
        ∧ g1.bufInput 1 = (if (32 : Byte) = DELIM_CHAR then 0 else 32)
        ∧ f1.isComplete = decide ((32 : Byte) = DELIM_CHAR)
        ∧ f1.bufIdx = 1 + 1
        ∧ ∀ j : Int, j ≠ 1 → g1.bufInput j = 7 :=
  ⟨by decide, by decide, rfl, rfl,
    readToBuf_effect 4 { isComplete := false, bufIdx := 1 }
      { bufInput := fun _ => 7, Master := [32, 65], ledPin := true } 32 [65]
      (by decide) (by decide) rfl rfl⟩

/-! ## Invariants of the states reachable during `readToBufComplete` -/

theorem readToBufLoop_reachable (BUF_SIZE : Nat) (g0 : Globals) :
    ∀ (fuel : Nat) (f : Frame) (g : Globals) (r : Bool) (f1 : Frame) (g1 : Globals),
      Reachable BUF_SIZE g0 f g → readToBufLoop BUF_SIZE fuel f g = .ok (r, f1, g1) →
      Reachable BUF_SIZE g0 f1 g1 := by
  intro fuel
  induction fuel with
  | zero =>
    intro f g r f1 g1 hr h
    by_cases hc : f.isComplete = true
    · simp only [readToBufLoop, hc, if_true, Except.ok.injEq, Prod.mk.injEq] at h
      obtain ⟨_, rfl, rfl⟩ := h
      exact hr
    · simp [readToBufLoop, hc] at h
  | succ n ih =>
    intro f g r f1 g1 hr h
    by_cases hc : f.isComplete = true
    · simp only [readToBufLoop, hc, if_true, Except.ok.injEq, Prod.mk.injEq] at h
      obtain ⟨_, rfl, rfl⟩ := h
      exact hr
    · simp only [readToBufLoop, hc, Bool.false_eq_true, if_false] at h
      cases hs : readToBuf BUF_SIZE f g with
      | error e => simp [hs] at h
      | ok res =>
        obtain ⟨r2, f2, g2⟩ := res
        have hr2 : Reachable BUF_SIZE g0 f2 g2 := Reachable.step hr hs
        rw [hs] at h
        cases r2 with
        | false =>
          simp only [Except.ok.injEq, Prod.mk.injEq] at h
          obtain ⟨_, rfl, rfl⟩ := h
          exact hr2
        | true => exact ih f2 g2 r f1 g1 hr2 h

theorem reachable_index (BUF_SIZE : Nat) (g0 : Globals) (f : Frame) (g : Globals)
    (h : Reachable BUF_SIZE g0 f g) :
    0 ≤ f.bufIdx ∧ f.bufIdx ≤ (BUF_SIZE : Int)
      ∧ ∀ j : Int, ¬ (0 ≤ j ∧ j < (BUF_SIZE : Int)) → g.bufInput j = g0.bufInput j := by
  induction h with
  | init => exact ⟨le_refl 0, by simp only; omega, fun _ _ => rfl⟩
  | @step f g r f1 g1 _ hs ih =>
    obtain ⟨h0, h1, hout⟩ := ih
    rcases readToBuf_cases BUF_SIZE f g with ⟨_, e⟩ | ⟨_, _, _, e⟩ | ⟨hk, _, rest, _, e⟩
      | ⟨hk, _, b, rest, _, _, e⟩
    · rw [e] at hs
      simp only [Except.ok.injEq, Prod.mk.injEq] at hs
      obtain ⟨_, rfl, rfl⟩ := hs
      exact ⟨h0, h1, hout⟩
    · rw [e] at hs
      cases hs
    · rw [e] at hs
      simp only [Except.ok.injEq, Prod.mk.injEq] at hs
      obtain ⟨_, rfl, rfl⟩ := hs
      refine ⟨by simp only; omega, by simp only; omega, fun j hj => ?_⟩
      simp only
      rw [Function.update_noteq (by omega), hout j hj]
    · rw [e] at hs
      simp only [Except.ok.injEq, Prod.mk.injEq] at hs
      obtain ⟨_, rfl, rfl⟩ := hs
      refine ⟨by simp only; omega, by simp only; omega, fun j hj => ?_⟩
      simp only
      rw [Function.update_noteq (by omega), hout j hj]

/-- C9: in every state reachable during `readToBufComplete` (from
`isComplete = false`, `bufIdx = 0`, stepping with `readToBuf`),
`0 <= bufIdx <= BUF_SIZE`; consequently every write `bufInput[bufIdx]` that
`readToBuf` performs from such a state is at an index in `[0, BUF_SIZE)`, and
no cell outside the buffer is ever changed. -/
theorem bufIdx_in_bounds (BUF_SIZE : Nat) (g0 : Globals) (f : Frame) (g : Globals)
    (h : Reachable BUF_SIZE g0 f g) :
    (0 ≤ f.bufIdx ∧ f.bufIdx ≤ (BUF_SIZE : Int))
      ∧ (∀ (f1 : Frame) (g1 : Globals), readToBuf BUF_SIZE f g = .ok (true, f1, g1) →
          (0 ≤ f.bufIdx ∧ f.bufIdx < (BUF_SIZE : Int))
            ∧ ∀ j : Int, j ≠ f.bufIdx → g1.bufInput j = g.bufInput j)
      ∧ (∀ j : Int, ¬ (0 ≤ j ∧ j < (BUF_SIZE : Int)) → g.bufInput j = g0.bufInput j) := by
  obtain ⟨h0, h1, hout⟩ := reachable_index BUF_SIZE g0 f g h
  refine ⟨⟨h0, h1⟩, ?_, hout⟩
  intro f1 g1 hs
  rcases readToBuf_cases BUF_SIZE f g with ⟨_, e⟩ | ⟨_, _, _, e⟩ | ⟨hk, _, rest, _, e⟩
    | ⟨hk, _, b, rest, _, _, e⟩
  · rw [e] at hs
    simp at hs
  · rw [e] at hs
    cases hs
  · rw [e] at hs
    simp only [Except.ok.injEq, Prod.mk.injEq, true_and] at hs
    obtain ⟨_, rfl⟩ := hs
    exact ⟨⟨h0, hk⟩, fun j hj => Function.update_noteq hj _ _⟩
  · rw [e] at hs
    simp only [Except.ok.injEq, Prod.mk.injEq, true_and] at hs
    obtain ⟨_, rfl⟩ := hs
    exact ⟨⟨h0, hk⟩, fun j hj => Function.update_noteq hj _ _⟩

theorem bufIdx_in_bounds_witness :
    Reachable 2 { bufInput := fun _ => 0, Master := [65, 32], ledPin := false }
        { isComplete := false, bufIdx := 0 + 1 }
        { bufInput := Function.update (fun _ => 0) 0 65, Master := [32], ledPin := false }
      ∧ ((0 : Int) ≤ 0 + 1 ∧ (0 + 1 : Int) ≤ ((2 : Nat) : Int))
      ∧ (∀ (f1 : Frame) (g1 : Globals),
          readToBuf 2 { isComplete := false, bufIdx := 0 + 1 }
              { bufInput := Function.update (fun _ => 0) 0 65, Master := [32], ledPin := false }
            = .ok (true, f1, g1) →
          ((0 : Int) ≤ 0 + 1 ∧ (0 + 1 : Int) < ((2 : Nat) : Int))
            ∧ ∀ j : Int, j ≠ 0 + 1 →
                g1.bufInput j = Function.update (fun _ => (0 : Byte)) (0 : Int) 65 j)
      ∧ (∀ j : Int, ¬ (0 ≤ j ∧ j < ((2 : Nat) : Int)) →
          Function.update (fun _ => (0 : Byte)) (0 : Int) 65 j = 0) :=
  ⟨Reachable.step Reachable.init
      (readToBuf_byte 2 0 (fun _ => 0) 65 [32] false (by decide) (by decide)),
    bufIdx_in_bounds 2 { bufInput := fun _ => 0, Master := [65, 32], ledPin := false }
      { isComplete := false, bufIdx := 0 + 1 }
      { bufInput := Function.update (fun _ => 0) 0 65, Master := [32], ledPin := false }
      (Reachable.step Reachable.init
        (readToBuf_byte 2 0 (fun _ => 0) 65 [32] false (by decide) (by decide)))⟩

theorem reachable_consumed (BUF_SIZE : Nat) (g0 : Globals) (f : Frame) (g : Globals)
    (h : Reachable BUF_SIZE g0 f g) :
    ∃ consumed : List Byte, g0.Master = consumed ++ g.Master
      ∧ (consumed.length : Int) = f.bufIdx
      ∧ (f.isComplete = false → DELIM_CHAR ∉ consumed)
      ∧ (f.isComplete = true →
          consumed.getLast? = some DELIM_CHAR ∧ g.bufInput (f.bufIdx - 1) = 0) := by
  induction h with
  | init => exact ⟨[], rfl, rfl, fun _ => by simp, fun hc => by cases hc⟩
  | @step f g r f1 g1 _ hs ih =>
    obtain ⟨consumed, hm, hlen, hfalse, htrue⟩ := ih
    rcases readToBuf_cases BUF_SIZE f g with ⟨_, e⟩ | ⟨_, _, _, e⟩ | ⟨_, hc, rest, hmr, e⟩
      | ⟨_, hc, b, rest, hb, hmr, e⟩
    · rw [e] at hs
      simp only [Except.ok.injEq, Prod.mk.injEq] at hs
      obtain ⟨_, rfl, rfl⟩ := hs
      exact ⟨consumed, hm, hlen, hfalse, htrue⟩
    · rw [e] at hs
      cases hs
    · rw [e] at hs
      simp only [Except.ok.injEq, Prod.mk.injEq] at hs
      obtain ⟨_, rfl, rfl⟩ := hs
      refine ⟨consumed ++ [DELIM_CHAR], ?_, ?_, ?_, ?_⟩
      · rw [hm, hmr]
        simp
      · simp only [List.length_append, List.length_singleton, Nat.cast_add, Nat.cast_one]
        omega
      · intro hc1
        cases hc1
      · intro _
        refine ⟨by simp, ?_⟩
        have hidx : f.bufIdx + 1 - 1 = f.bufIdx := by omega
        show Function.update g.bufInput f.bufIdx 0 (f.bufIdx + 1 - 1) = 0
        rw [hidx, Function.update_same]
    · rw [e] at hs
      simp only [Except.ok.injEq, Prod.mk.injEq] at hs
      obtain ⟨_, rfl, rfl⟩ := hs
      refine ⟨consumed ++ [b], ?_, ?_, ?_, ?_⟩
      · rw [hm, hmr]
        simp
      · simp only [List.length_append, List.length_singleton, Nat.cast_add, Nat.cast_one]
        omega
      · intro _ hmem
        rcases List.mem_append.mp hmem with hmem | hmem
        · exact hfalse hc hmem
        · exact hb (List.mem_singleton.mp hmem).symm
      · intro hc1
        cases hc1

/-- C10: in every state reachable during `readToBufComplete`, with `consumed`
the bytes taken from the source so far (one per buffer cell written):
`isComplete` is true if and only if at least one byte has been consumed and
the most recently consumed byte was the delimiter; when `isComplete` is true,
`bufIdx >= 1` and `bufInput[bufIdx-1]` is the null byte stored for it; when
`isComplete` is false, no consumed byte, the last one included, was the
delimiter. -/
theorem isComplete_iff_last_delim (BUF_SIZE : Nat) (g0 : Globals) (f : Frame) (g : Globals)
    (h : Reachable BUF_SIZE g0 f g) :
    ∃ consumed : List Byte, g0.Master = consumed ++ g.Master
      ∧ (consumed.length : Int) = f.bufIdx
      ∧ (f.isComplete = true ↔ consumed.getLast? = some DELIM_CHAR)
      ∧ (f.isComplete = true → 1 ≤ f.bufIdx ∧ g.bufInput (f.bufIdx - 1) = 0)
      ∧ (f.isComplete = false → ∀ b, consumed.getLast? = some b → b ≠ DELIM_CHAR) := by
  obtain ⟨consumed, hm, hlen, hfalse, htrue⟩ := reachable_consumed BUF_SIZE g0 f g h
  refine ⟨consumed, hm, hlen, ⟨fun hc => (htrue hc).1, fun hl => ?_⟩, fun hc => ⟨?_, (htrue hc).2⟩,
    fun hc b hl hb => ?_⟩
  · by_contra hc
    have hc0 : f.isComplete = false := by simpa using hc
    exact hfalse hc0 (List.mem_of_getLast?_eq_some hl)
  · have hl := (htrue hc).1
    cases consumed with
    | nil => simp at hl
    | cons x xs =>
      simp only [List.length_cons, Nat.cast_add, Nat.cast_one] at hlen
      omega
  · rw [hb] at hl
    exact hfalse hc (List.mem_of_getLast?_eq_some hl)

theorem isComplete_iff_last_delim_witness :
    Reachable 2 { bufInput := fun _ => 9, Master := [DELIM_CHAR, 65], ledPin := false }
        { isComplete := true, bufIdx := 0 + 1 }
        { bufInput := Function.update (fun _ => 9) 0 0, Master := [65], ledPin := false }
      ∧ ∃ consumed : List Byte, [DELIM_CHAR, 65] = consumed ++ [65]
        ∧ (consumed.length : Int) = 0 + 1
        ∧ (true = true ↔ consumed.getLast? = some DELIM_CHAR)
        ∧ (true = true → (1 : Int) ≤ 0 + 1
            ∧ Function.update (fun _ => (9 : Byte)) (0 : Int) 0 (0 + 1 - 1) = 0)
        ∧ (true = false → ∀ b, consumed.getLast? = some b → b ≠ DELIM_CHAR) :=
  ⟨Reachable.step Reachable.init (readToBuf_delim 2 0 (fun _ => 9) [65] false (by decide)),
    isComplete_iff_last_delim 2
      { bufInput := fun _ => 9, Master := [DELIM_CHAR, 65], ledPin := false }
      { isComplete := true, bufIdx := 0 + 1 }
      { bufInput := Function.update (fun _ => 9) 0 0, Master := [65], ledPin := false }
      (Reachable.step Reachable.init
        (readToBuf_delim 2 0 (fun _ => 9) [65] false (by decide)))⟩

/-! ## The iteration bound of the loop is never reached -/

theorem readToBufLoop_fuel_enough (BUF_SIZE : Nat) :
    ∀ (fuel : Nat) (f : Frame) (g : Globals), ((BUF_SIZE : Int) - f.bufIdx).toNat < fuel →
      readToBufLoop BUF_SIZE fuel f g ≠ .error Fault.fuel := by
  intro fuel
  induction fuel with
  | zero =>
    intro f g hf
    omega
  | succ n ih =>
    intro f g hf
    by_cases hc : f.isComplete = true
    · simp [readToBufLoop, hc]
    · simp only [readToBufLoop, hc, Bool.false_eq_true, if_false]
      rcases readToBuf_cases BUF_SIZE f g with ⟨_, e⟩ | ⟨_, _, _, e⟩ | ⟨hk, _, rest, _, e⟩
        | ⟨hk, _, b, rest, _, _, e⟩
      · rw [e]
        simp
      · rw [e]
        simp
      · rw [e]
        exact ih _ _ (by simp only; omega)
      · rw [e]
        exact ih _ _ (by simp only; omega)

theorem readToBufComplete_no_fuel_fault (BUF_SIZE : Nat) (g : Globals) :
    readToBufComplete BUF_SIZE g ≠ .error Fault.fuel := by
  have h := readToBufLoop_fuel_enough BUF_SIZE (BUF_SIZE + 1)
    { isComplete := false, bufIdx := 0 } g (by simp only; omega)
  rw [readToBufComplete]
  cases hl : readToBufLoop BUF_SIZE (BUF_SIZE + 1) { isComplete := false, bufIdx := 0 } g with
  | error e =>
    intro he
    simp only [Except.error.injEq] at he
    rw [hl, he] at h
    exact h rfl
  | ok res => simp

/-! ## The three shapes of a source stream -/

theorem stream_cases (BUF_SIZE : Nat) :
    ∀ m : List Byte,
      (∃ w rest, m = w ++ DELIM_CHAR :: rest ∧ DELIM_CHAR ∉ w ∧ w.length < BUF_SIZE)
      ∨ (∃ w rest, m = w ++ rest ∧ DELIM_CHAR ∉ w ∧ w.length = BUF_SIZE)
      ∨ (DELIM_CHAR ∉ m ∧ m.length < BUF_SIZE) := by
  induction BUF_SIZE with
  | zero =>
    intro m
    exact Or.inr (Or.inl ⟨[], m, rfl, by simp, rfl⟩)
  | succ n ih =>
    intro m
    cases m with
    | nil => exact Or.inr (Or.inr ⟨by simp, by simp⟩)
    | cons c t =>
      by_cases hc : c = DELIM_CHAR
      · subst hc
        exact Or.inl ⟨[], t, rfl, by simp, by simp⟩
      · have hne : DELIM_CHAR ≠ c := fun h => hc h.symm
        rcases ih t with ⟨w, rest, hm, hw, hl⟩ | ⟨w, rest, hm, hw, hl⟩ | ⟨hw, hl⟩
        · refine Or.inl ⟨c :: w, rest, by rw [hm]; rfl, ?_, by simp [hl]⟩
          simp only [List.mem_cons, not_or]
          exact ⟨hne, hw⟩
        · refine Or.inr (Or.inl ⟨c :: w, rest, by rw [hm]; rfl, ?_, by simp [hl]⟩)
          simp only [List.mem_cons, not_or]
          exact ⟨hne, hw⟩
        · refine Or.inr (Or.inr ⟨?_, by simp [hl]⟩)
          simp only [List.mem_cons, not_or]
          exact ⟨hne, hw⟩

theorem readToBufLoop_blocked (BUF_SIZE : Nat) (w : List Byte) (hw : DELIM_CHAR ∉ w) :
    ∀ (fuel : Nat) (k : Int) (buf : Int → Byte) (led : Bool),
      w.length < fuel → k + w.length < BUF_SIZE →
      readToBufLoop BUF_SIZE fuel { isComplete := false, bufIdx := k }
          { bufInput := buf, Master := w, ledPin := led }
        = .error Fault.blocked := by
  induction w with
  | nil =>
    intro fuel k buf led hf hk
    obtain ⟨n, rfl⟩ : ∃ n, fuel = n + 1 := ⟨fuel - 1, by simp at hf; omega⟩
    simp only [List.length_nil, Nat.cast_zero, add_zero] at hk
    have hk1 : ¬ (BUF_SIZE : Int) ≤ k := by omega
    simp [readToBufLoop, readToBuf, hk1]
  | cons c w ih =>
    intro fuel k buf led hf hk
    simp only [List.length_cons, Nat.cast_add, Nat.cast_one] at hf hk
    obtain ⟨n, rfl⟩ : ∃ n, fuel = n + 1 := ⟨fuel - 1, by omega⟩
    have hc : c ≠ DELIM_CHAR := fun h => hw (by simp [h])
    have hw1 : DELIM_CHAR ∉ w := fun h => hw (by simp [h])
    rw [readToBufLoop]
    simp only [Bool.false_eq_true, if_false]
    rw [readToBuf_byte BUF_SIZE k buf c _ led (by omega) hc]
    simp only
    exact ih hw1 n (k + 1) _ false (by omega) (by omega)

theorem complete_on_blocked (BUF_SIZE : Nat) (m : List Byte) (buf : Int → Byte)
    (led : Bool) (hw : DELIM_CHAR ∉ m) (hn : m.length < BUF_SIZE) :
    readToBufComplete BUF_SIZE { bufInput := buf, Master := m, ledPin := led }
      = .error Fault.blocked := by
  rw [readToBufComplete,
    readToBufLoop_blocked BUF_SIZE m hw (BUF_SIZE + 1) 0 buf led (by omega) (by omega)]

theorem readToBufLoop_fuel_mono (BUF_SIZE : Nat) :
    ∀ (fuel : Nat) (f : Frame) (g : Globals) (res : Bool × Frame × Globals),
      readToBufLoop BUF_SIZE fuel f g = .ok res →
      ∀ extra : Nat, readToBufLoop BUF_SIZE (fuel + extra) f g = .ok res := by
  intro fuel
  induction fuel with
  | zero =>
    intro f g res h extra
    by_cases hc : f.isComplete = true
    · cases extra <;> simpa [readToBufLoop, hc] using h
    · simp [readToBufLoop, hc] at h
  | succ n ih =>
    intro f g res h extra
    by_cases hc : f.isComplete = true
    · have h1 : n + 1 + extra = (n + extra) + 1 := by omega
      rw [h1]
      simpa [readToBufLoop, hc] using h
    · have h1 : n + 1 + extra = (n + extra) + 1 := by omega
      rw [h1]
      simp only [readToBufLoop, hc, Bool.false_eq_true, if_false] at h ⊢
      cases hs : readToBuf BUF_SIZE f g with
      | error e => simp [hs] at h
      | ok r3 =>
        obtain ⟨r2, f2, g2⟩ := r3
        rw [hs] at h
        cases r2 with
        | false => exact h
        | true => exact ih f2 g2 res h extra

theorem storeLine_first (w : List Byte) (buf buf1 : Int → Byte) :
    storeLine buf 0 w 0 = storeLine buf1 0 w 0 := by
  cases w with
  | nil =>
    have h := storeLine_end [] buf 0
    have h1 := storeLine_end [] buf1 0
    simp only [List.length_nil, Nat.cast_zero, add_zero] at h h1
    rw [h, h1]
  | cons c t =>
    have h := storeLine_get (c :: t) buf 0 0 (by simp)
    have h1 := storeLine_get (c :: t) buf1 0 0 (by simp)
    simp only [Nat.cast_zero, add_zero] at h h1
    rw [h, h1]

/-! ## Nothing is carried over from an earlier call -/

theorem returns_same_source (BUF_SIZE INT_BITS : Nat) (m : List Byte)
    (buf buf1 : Int → Byte) (led led1 : Bool) :
    returned (readToBufComplete BUF_SIZE { bufInput := buf, Master := m, ledPin := led })
        = returned (readToBufComplete BUF_SIZE
            { bufInput := buf1, Master := m, ledPin := led1 })
      ∧ returned (readChar BUF_SIZE { bufInput := buf, Master := m, ledPin := led })
        = returned (readChar BUF_SIZE { bufInput := buf1, Master := m, ledPin := led1 })
      ∧ returned (readUInt BUF_SIZE INT_BITS { bufInput := buf, Master := m, ledPin := led })
        = returned (readUInt BUF_SIZE INT_BITS
            { bufInput := buf1, Master := m, ledPin := led1 }) := by
  rcases stream_cases BUF_SIZE m with ⟨w, rest, rfl, hw, hl⟩ | ⟨w, rest, rfl, hw, hl⟩ | ⟨hw, hl⟩
  · refine ⟨?_, ?_, ?_⟩
    · rw [complete_on_line BUF_SIZE w rest buf led hw hl,
        complete_on_line BUF_SIZE w rest buf1 led1 hw hl]
      rfl
    · rw [readChar, readChar, complete_on_line BUF_SIZE w rest buf led hw hl,
        complete_on_line BUF_SIZE w rest buf1 led1 hw hl]
      simp only [returned]
      rw [storeLine_first w buf buf1]
    · rw [readUInt_on_line BUF_SIZE INT_BITS w rest buf led hw hl,
        readUInt_on_line BUF_SIZE INT_BITS w rest buf1 led1 hw hl]
      rfl
  · obtain ⟨l2, h⟩ := complete_on_overflow BUF_SIZE w rest buf led hw hl
    obtain ⟨l3, h1⟩ := complete_on_overflow BUF_SIZE w rest buf1 led1 hw hl
    refine ⟨?_, ?_, ?_⟩
    · rw [h, h1]
      rfl
    · rw [readChar, readChar, h, h1]
      rfl
    · rw [readUInt, readUInt, h, h1]
      rfl
  · have h := complete_on_blocked BUF_SIZE m buf led hw hl
    have h1 := complete_on_blocked BUF_SIZE m buf1 led1 hw hl
    refine ⟨?_, ?_, ?_⟩
    · rw [h, h1]
    · rw [readChar, readChar, h, h1]
    · rw [readUInt, readUInt, h, h1]

theorem line_cells (BUF_SIZE : Nat) (w rest : List Byte) (g1 : Globals)
    (hm : g1.Master = w ++ DELIM_CHAR :: rest) (hw : DELIM_CHAR ∉ w)
    (hn : w.length < BUF_SIZE) :
    ∃ g2, readToBufComplete BUF_SIZE g1 = .ok (true, g2) ∧ g2.Master = rest
      ∧ (∀ (i : Nat) (hi : i < w.length), g2.bufInput i = w[i])
      ∧ g2.bufInput w.length = 0 := by
  obtain ⟨buf, m, led⟩ := g1
  simp only at hm
  subst hm
  refine ⟨_, complete_on_line BUF_SIZE w rest buf led hw hn, rfl, ?_, ?_⟩
  · intro i hi
    have h := storeLine_get w buf 0 i hi
    simpa using h
  · have h := storeLine_end w buf 0
    simpa using h

theorem call_after_overflow (BUF_SIZE : Nat) (w1 w2 rest : List Byte) (buf : Int → Byte)
    (led : Bool) (hw1 : DELIM_CHAR ∉ w1) (hn1 : w1.length = BUF_SIZE)
    (hw2 : DELIM_CHAR ∉ w2) (hn2 : w2.length < BUF_SIZE) :
    ∃ g1 g2,
      readToBufLoop BUF_SIZE (BUF_SIZE + 1) { isComplete := false, bufIdx := 0 }
          { bufInput := buf, Master := w1 ++ (w2 ++ DELIM_CHAR :: rest), ledPin := led }
        = .ok (false, { isComplete := false, bufIdx := BUF_SIZE }, g1)
      ∧ readToBufComplete BUF_SIZE
          { bufInput := buf, Master := w1 ++ (w2 ++ DELIM_CHAR :: rest), ledPin := led }
        = .ok (false, g1)
      ∧ readToBufComplete BUF_SIZE g1 = .ok (true, g2) ∧ g2.Master = rest
      ∧ (∀ (i : Nat) (hi : i < w2.length), g2.bufInput i = w2[i])
      ∧ g2.bufInput w2.length = 0 := by
  obtain ⟨l1, h⟩ := readToBufLoop_overflow BUF_SIZE w1 (w2 ++ DELIM_CHAR :: rest) hw1
    (BUF_SIZE + 1) 0 buf led (by omega) (by omega)
  obtain ⟨g2, h2, hm2, hc2, he2⟩ := line_cells BUF_SIZE w2 rest
    { bufInput := storeBytes buf 0 w1, Master := w2 ++ DELIM_CHAR :: rest, ledPin := l1 }
    rfl hw2 hn2
  exact ⟨_, g2, h, by rw [readToBufComplete, h], h2, hm2, hc2, he2⟩

theorem call_after_complete (BUF_SIZE : Nat) (w1 w2 rest : List Byte) (buf : Int → Byte)
    (led : Bool) (hw1 : DELIM_CHAR ∉ w1) (hn1 : w1.length < BUF_SIZE)
    (hw2 : DELIM_CHAR ∉ w2) (hn2 : w2.length < BUF_SIZE) :
    ∃ g1 g2,
      readToBufLoop BUF_SIZE (BUF_SIZE + 1) { isComplete := false, bufIdx := 0 }
          { bufInput := buf, Master := w1 ++ DELIM_CHAR :: (w2 ++ DELIM_CHAR :: rest),
            ledPin := led }
        = .ok (true, { isComplete := true, bufIdx := 0 + w1.length + 1 }, g1)
      ∧ readToBufComplete BUF_SIZE
          { bufInput := buf, Master := w1 ++ DELIM_CHAR :: (w2 ++ DELIM_CHAR :: rest),
            ledPin := led }
        = .ok (true, g1)
      ∧ readToBufComplete BUF_SIZE g1 = .ok (true, g2) ∧ g2.Master = rest
      ∧ (∀ (i : Nat) (hi : i < w2.length), g2.bufInput i = w2[i])
      ∧ g2.bufInput w2.length = 0 := by
  have h := readToBufLoop_line BUF_SIZE w1 (w2 ++ DELIM_CHAR :: rest) hw1
    (BUF_SIZE + 1) 0 buf led (by omega) (by omega)
  obtain ⟨g2, h2, hm2, hc2, he2⟩ := line_cells BUF_SIZE w2 rest
    { bufInput := storeLine buf 0 w1, Master := w2 ++ DELIM_CHAR :: rest, ledPin := false }
    rfl hw2 hn2
  exact ⟨_, g2, h, by rw [readToBufComplete, h], h2, hm2, hc2, he2⟩

/-- C11: the results of `readToBufComplete`, `readChar` and `readUInt` depend
only on the bytes of the source, not on what an earlier call left behind: for
any two initial buffer contents (and indicator levels) and the same source
the returned values are equal. A call made after an overflowed call, which
ended with `bufIdx = BUF_SIZE`, or after a completed call, which ended with
`isComplete = true`, starts again from `isComplete = false`, `bufIdx = 0`: it
reads the next line into the cells from `bufInput[0]` on. -/
theorem reads_depend_only_on_source (BUF_SIZE INT_BITS : Nat) :
    (∀ (m : List Byte) (buf buf1 : Int → Byte) (led led1 : Bool),
      returned (readToBufComplete BUF_SIZE { bufInput := buf, Master := m, ledPin := led })
          = returned (readToBufComplete BUF_SIZE
              { bufInput := buf1, Master := m, ledPin := led1 })
        ∧ returned (readChar BUF_SIZE { bufInput := buf, Master := m, ledPin := led })
          = returned (readChar BUF_SIZE { bufInput := buf1, Master := m, ledPin := led1 })
        ∧ returned (readUInt BUF_SIZE INT_BITS
              { bufInput := buf, Master := m, ledPin := led })
          = returned (readUInt BUF_SIZE INT_BITS
              { bufInput := buf1, Master := m, ledPin := led1 }))
    ∧ (∀ (w1 w2 rest : List Byte) (buf : Int → Byte) (led : Bool),
        DELIM_CHAR ∉ w1 → w1.length = BUF_SIZE → DELIM_CHAR ∉ w2 → w2.length < BUF_SIZE →
        ∃ g1 g2,
          readToBufLoop BUF_SIZE (BUF_SIZE + 1) { isComplete := false, bufIdx := 0 }
              { bufInput := buf, Master := w1 ++ (w2 ++ DELIM_CHAR :: rest), ledPin := led }
            = .ok (false, { isComplete := false, bufIdx := BUF_SIZE }, g1)
          ∧ readToBufComplete BUF_SIZE
              { bufInput := buf, Master := w1 ++ (w2 ++ DELIM_CHAR :: rest), ledPin := led }
            = .ok (false, g1)
          ∧ readToBufComplete BUF_SIZE g1 = .ok (true, g2) ∧ g2.Master = rest
          ∧ (∀ (i : Nat) (hi : i < w2.length), g2.bufInput i = w2[i])
          ∧ g2.bufInput w2.length = 0)
    ∧ (∀ (w1 w2 rest : List Byte) (buf : Int → Byte) (led : Bool),
        DELIM_CHAR ∉ w1 → w1.length < BUF_SIZE → DELIM_CHAR ∉ w2 → w2.length < BUF_SIZE →
        ∃ g1 g2,
          readToBufLoop BUF_SIZE (BUF_SIZE + 1) { isComplete := false, bufIdx := 0 }
              { bufInput := buf, Master := w1 ++ DELIM_CHAR :: (w2 ++ DELIM_CHAR :: rest),
                ledPin := led }
            = .ok (true, { isComplete := true, bufIdx := 0 + w1.length + 1 }, g1)
          ∧ readToBufComplete BUF_SIZE
              { bufInput := buf, Master := w1 ++ DELIM_CHAR :: (w2 ++ DELIM_CHAR :: rest),
                ledPin := led }
            = .ok (true, g1)
          ∧ readToBufComplete BUF_SIZE g1 = .ok (true, g2) ∧ g2.Master = rest
          ∧ (∀ (i : Nat) (hi : i < w2.length), g2.bufInput i = w2[i])
          ∧ g2.bufInput w2.length = 0) :=
  ⟨returns_same_source BUF_SIZE INT_BITS,
    fun w1 w2 rest buf led hw1 hn1 hw2 hn2 =>
      call_after_overflow BUF_SIZE w1 w2 rest buf led hw1 hn1 hw2 hn2,
    fun w1 w2 rest buf led hw1 hn1 hw2 hn2 =>
      call_after_complete BUF_SIZE w1 w2 rest buf led hw1 hn1 hw2 hn2⟩

theorem reads_depend_only_on_source_witness :
    (DELIM_CHAR ∉ ([65, 66] : List Byte) ∧ ([65, 66] : List Byte).length = 2
      ∧ DELIM_CHAR ∉ ([53] : List Byte) ∧ ([53] : List Byte).length < 2)
    ∧ ∃ g1 g2,
        readToBufLoop 2 (2 + 1) { isComplete := false, bufIdx := 0 }
            { bufInput := fun _ => 7, Master := [65, 66] ++ ([53] ++ DELIM_CHAR :: [90]),
              ledPin := true }
          = .ok (false, { isComplete := false, bufIdx := ((2 : Nat) : Int) }, g1)
        ∧ readToBufComplete 2
            { bufInput := fun _ => 7, Master := [65, 66] ++ ([53] ++ DELIM_CHAR :: [90]),
              ledPin := true }
          = .ok (false, g1)
        ∧ readToBufComplete 2 g1 = .ok (true, g2) ∧ g2.Master = [90]
        ∧ (∀ (i : Nat) (hi : i < ([53] : List Byte).length),
            g2.bufInput i = ([53] : List Byte)[i])
        ∧ g2.bufInput ([53] : List Byte).length = 0 :=
  ⟨⟨by decide, by decide, by decide, by decide⟩,
    (reads_depend_only_on_source 2 16).2.1 [65, 66] [53] [90] (fun _ => 7) true
      (by decide) (by decide) (by decide) (by decide)⟩

/-! ## Termination of the loop -/

theorem readToBufLoop_returns (BUF_SIZE : Nat) (buf : Int → Byte) (m : List Byte)
    (led : Bool) (hlen : BUF_SIZE ≤ m.length) :
    ∃ r f1 g1,
      readToBufComplete BUF_SIZE { bufInput := buf, Master := m, ledPin := led } = .ok (r, g1)
      ∧ (∀ fuel : Nat, f1.bufIdx.toNat + 1 ≤ fuel →
          readToBufLoop BUF_SIZE fuel { isComplete := false, bufIdx := 0 }
            { bufInput := buf, Master := m, ledPin := led } = .ok (r, f1, g1))
      ∧ 0 ≤ f1.bufIdx ∧ f1.bufIdx ≤ (BUF_SIZE : Int)
      ∧ ∃ consumed : List Byte, m = consumed ++ g1.Master
          ∧ (consumed.length : Int) = f1.bufIdx := by
  rcases stream_cases BUF_SIZE m with ⟨w, rest, rfl, hw, hl⟩ | ⟨w, rest, rfl, hw, hl⟩ | ⟨hw, hl⟩
  · refine ⟨true, { isComplete := true, bufIdx := 0 + w.length + 1 },
      { bufInput := storeLine buf 0 w, Master := rest, ledPin := false },
      complete_on_line BUF_SIZE w rest buf led hw hl, ?_, by simp only; omega,
      by simp only; omega, w ++ [DELIM_CHAR], by simp, by simp⟩
    intro fuel hf
    simp only at hf
    exact readToBufLoop_line BUF_SIZE w rest hw fuel 0 buf led (by omega) (by omega)
  · obtain ⟨l1, h⟩ := readToBufLoop_overflow BUF_SIZE w rest hw (BUF_SIZE + 1) 0 buf led
      (by omega) (by omega)
    refine ⟨false, { isComplete := false, bufIdx := BUF_SIZE },
      { bufInput := storeBytes buf 0 w, Master := rest, ledPin := l1 },
      by rw [readToBufComplete, h], ?_, by simp, by simp, w, rfl, by simp [hl]⟩
    intro fuel hf
    simp only [Int.toNat_ofNat] at hf
    obtain ⟨extra, rfl⟩ : ∃ extra, fuel = BUF_SIZE + 1 + extra := ⟨fuel - (BUF_SIZE + 1), by omega⟩
    exact readToBufLoop_fuel_mono BUF_SIZE (BUF_SIZE + 1) _ _ _ h extra
  · omega

theorem readToBuf_measure (BUF_SIZE : Nat) (f : Frame) (g : Globals) (f1 : Frame)
    (g1 : Globals) (h : readToBuf BUF_SIZE f g = .ok (true, f1, g1)) :
    0 ≤ (BUF_SIZE : Int) - f1.bufIdx
      ∧ (BUF_SIZE : Int) - f1.bufIdx < (BUF_SIZE : Int) - f.bufIdx := by
  rcases readToBuf_cases BUF_SIZE f g with ⟨_, e⟩ | ⟨_, _, _, e⟩ | ⟨hk, _, rest, _, e⟩
    | ⟨hk, _, b, rest, _, _, e⟩
  · rw [e] at h
    simp at h
  · rw [e] at h
    cases h
  · rw [e] at h
    simp only [Except.ok.injEq, Prod.mk.injEq, true_and] at h
    obtain ⟨rfl, _⟩ := h
    simp only
    omega
  · rw [e] at h
    simp only [Except.ok.injEq, Prod.mk.injEq, true_and] at h
    obtain ⟨rfl, _⟩ := h
    simp only
    omega

theorem readToBufLoop_failing_call (BUF_SIZE n : Nat) (f : Frame) (g : Globals) (f1 : Frame)
    (g1 : Globals) (hc : f.isComplete = false)
    (h : readToBuf BUF_SIZE f g = .ok (false, f1, g1)) :
    readToBufLoop BUF_SIZE (n + 1) f g = .ok (false, f1, g1) := by
  simp [readToBufLoop, hc, h]

/-- C12: on a source that supplies at least `BUF_SIZE` bytes
`readToBufComplete` terminates with a result. Its loop ends after at most
`bufIdx + 1` calls of `readToBuf`, where the final `bufIdx`, the number of
successful calls and of bytes consumed, is at most `BUF_SIZE`; every
successful call strictly decreases `BUF_SIZE - bufIdx`, which stays
non-negative; and a failing call ends the loop at once, so there is at most
one. A missing delimiter therefore cannot make it read more than `BUF_SIZE`
bytes. -/
theorem readToBufComplete_terminates (BUF_SIZE : Nat) (g : Globals)
    (hlen : BUF_SIZE ≤ g.Master.length) :
    (∃ r f1 g1,
      readToBufComplete BUF_SIZE g = .ok (r, g1)
      ∧ (∀ fuel : Nat, f1.bufIdx.toNat + 1 ≤ fuel →
          readToBufLoop BUF_SIZE fuel { isComplete := false, bufIdx := 0 } g = .ok (r, f1, g1))
      ∧ 0 ≤ f1.bufIdx ∧ f1.bufIdx ≤ (BUF_SIZE : Int)
      ∧ ∃ consumed : List Byte, g.Master = consumed ++ g1.Master
          ∧ (consumed.length : Int) = f1.bufIdx)
    ∧ (∀ (f : Frame) (g2 : Globals) (f1 : Frame) (g1 : Globals),
        readToBuf BUF_SIZE f g2 = .ok (true, f1, g1) →
        0 ≤ (BUF_SIZE : Int) - f1.bufIdx
          ∧ (BUF_SIZE : Int) - f1.bufIdx < (BUF_SIZE : Int) - f.bufIdx)
    ∧ (∀ (n : Nat) (f : Frame) (g2 : Globals) (f1 : Frame) (g1 : Globals),
        f.isComplete = false → readToBuf BUF_SIZE f g2 = .ok (false, f1, g1) →
        readToBufLoop BUF_SIZE (n + 1) f g2 = .ok (false, f1, g1)) := by
  obtain ⟨buf, m, led⟩ := g
  exact ⟨readToBufLoop_returns BUF_SIZE buf m led hlen,
    fun f g2 f1 g1 h => readToBuf_measure BUF_SIZE f g2 f1 g1 h,
    fun n f g2 f1 g1 hc h => readToBufLoop_failing_call BUF_SIZE n f g2 f1 g1 hc h⟩

theorem readToBufComplete_terminates_witness :
    2 ≤ ([65, 66, 67] : List Byte).length
    ∧ (∃ r f1 g1,
        readToBufComplete 2 { bufInput := fun _ => 0, Master := [65, 66, 67], ledPin := false }
          = .ok (r, g1)
        ∧ (∀ fuel : Nat, f1.bufIdx.toNat + 1 ≤ fuel →
            readToBufLoop 2 fuel { isComplete := false, bufIdx := 0 }
              { bufInput := fun _ => 0, Master := [65, 66, 67], ledPin := false }
              = .ok (r, f1, g1))
        ∧ 0 ≤ f1.bufIdx ∧ f1.bufIdx ≤ ((2 : Nat) : Int)
        ∧ ∃ consumed : List Byte, [65, 66, 67] = consumed ++ g1.Master
            ∧ (consumed.length : Int) = f1.bufIdx) :=
  ⟨by decide,
    (readToBufComplete_terminates 2
      { bufInput := fun _ => 0, Master := [65, 66, 67], ledPin := false } (by decide)).1⟩

/-- C13: `readToBufComplete` consumes exactly the line and nothing after it.
When the first delimiter of the stream is at position `k < BUF_SIZE`
(counting from 0), exactly `k + 1` bytes are consumed and the remaining
source is the stream after that delimiter; when there is no delimiter among
the first `BUF_SIZE` bytes, exactly `BUF_SIZE` bytes are consumed before
`false` is returned. -/
theorem readToBufComplete_consumes (BUF_SIZE : Nat) :
    (∀ (w rest : List Byte) (buf : Int → Byte) (led : Bool),
      DELIM_CHAR ∉ w → w.length < BUF_SIZE →
      ∃ g1, readToBufComplete BUF_SIZE
            { bufInput := buf, Master := w ++ DELIM_CHAR :: rest, ledPin := led }
          = .ok (true, g1)
        ∧ g1.Master = rest
        ∧ g1.Master = (w ++ DELIM_CHAR :: rest).drop (w.length + 1))
    ∧ (∀ (w rest : List Byte) (buf : Int → Byte) (led : Bool),
      DELIM_CHAR ∉ w → w.length = BUF_SIZE →
      ∃ g1, readToBufComplete BUF_SIZE { bufInput := buf, Master := w ++ rest, ledPin := led }
          = .ok (false, g1)
        ∧ g1.Master = rest
        ∧ g1.Master = (w ++ rest).drop BUF_SIZE) := by
  constructor
  · intro w rest buf led hw hn
    refine ⟨_, complete_on_line BUF_SIZE w rest buf led hw hn, rfl, ?_⟩
    simp
  · intro w rest buf led hw hn
    obtain ⟨l1, h⟩ := complete_on_overflow BUF_SIZE w rest buf led hw hn
    refine ⟨_, h, rfl, ?_⟩
    simp [← hn]

theorem readToBufComplete_consumes_witness :
    ((DELIM_CHAR ∉ ([65, 66] : List Byte) ∧ ([65, 66] : List Byte).length < 3)
      ∧ ∃ g1, readToBufComplete 3
              { bufInput := fun _ => 0, Master := [65, 66] ++ DELIM_CHAR :: [67, 68],
                ledPin := false }
            = .ok (true, g1)
          ∧ g1.Master = [67, 68]
          ∧ g1.Master
            = ([65, 66] ++ DELIM_CHAR :: [67, 68]).drop (([65, 66] : List Byte).length + 1))
    ∧ ((DELIM_CHAR ∉ ([65, 66, 67] : List Byte) ∧ ([65, 66, 67] : List Byte).length = 3)
      ∧ ∃ g1, readToBufComplete 3
              { bufInput := fun _ => 0, Master := [65, 66, 67] ++ [68, 32], ledPin := false }
            = .ok (false, g1)
          ∧ g1.Master = [68, 32]
          ∧ g1.Master = ([65, 66, 67] ++ [68, 32]).drop 3) :=
  ⟨⟨⟨by decide, by decide⟩,
      (readToBufComplete_consumes 3).1 [65, 66] [67, 68] (fun _ => 0) false (by decide)
        (by decide)⟩,
    ⟨⟨by decide, by decide⟩,
      (readToBufComplete_consumes 3).2 [65, 66, 67] [68, 32] (fun _ => 0) false (by decide)
        (by decide)⟩⟩

/-- C14: a failing call of `readToBuf` is atomic. Whenever `readToBuf`
returns `false` (which it does because `*bufIdx >= BUF_SIZE` or `*isComplete`
is already true), it has consumed no byte from the source and has left
`*isComplete`, `*bufIdx` and every cell of `bufInput` unchanged. -/
theorem readToBuf_failure_atomic (BUF_SIZE : Nat) (f : Frame) (g : Globals) (f1 : Frame)
    (g1 : Globals) (h : readToBuf BUF_SIZE f g = .ok (false, f1, g1)) :
    (f.bufIdx ≥ (BUF_SIZE : Int) ∨ f.isComplete = true)
      ∧ g1.Master = g.Master
      ∧ f1.isComplete = f.isComplete
      ∧ f1.bufIdx = f.bufIdx
      ∧ (∀ j : Int, g1.bufInput j = g.bufInput j)
      ∧ g1.ledPin = g.ledPin := by
  rcases readToBuf_cases BUF_SIZE f g with ⟨hg, e⟩ | ⟨_, _, _, e⟩ | ⟨_, _, rest, _, e⟩
    | ⟨_, _, b, rest, _, _, e⟩
  · rw [e] at h
    simp only [Except.ok.injEq, Prod.mk.injEq, true_and] at h
    obtain ⟨rfl, rfl⟩ := h
    exact ⟨hg, rfl, rfl, rfl, fun _ => rfl, rfl⟩
  · rw [e] at h
    cases h
  · rw [e] at h
    simp at h
  · rw [e] at h
    simp at h

theorem readToBuf_failure_atomic_witness :
    readToBuf 2 { isComplete := false, bufIdx := 2 }
        { bufInput := fun _ => 7, Master := [65, 32], ledPin := true }
      = .ok (false, { isComplete := false, bufIdx := 2 },
          { bufInput := fun _ => 7, Master := [65, 32], ledPin := true })
    ∧ (((2 : Int) ≥ ((2 : Nat) : Int) ∨ false = true)
      ∧ ([65, 32] : List Byte) = [65, 32]
      ∧ false = false
      ∧ (2 : Int) = 2
      ∧ (∀ j : Int, (fun _ => (7 : Byte)) j = (fun _ => (7 : Byte)) j)
      ∧ true = true) :=
  ⟨readToBuf_full 2 _ _ (by decide),
    readToBuf_failure_atomic 2 { isComplete := false, bufIdx := 2 }
      { bufInput := fun _ => 7, Master := [65, 32], ledPin := true }
      { isComplete := false, bufIdx := 2 }
      { bufInput := fun _ => 7, Master := [65, 32], ledPin := true }
      (readToBuf_full 2 _ _ (by decide))⟩

/-- C15: the failure sentinels are unambiguous for well-formed input. For a
successfully read line that is a non-empty string of decimal digits with a
value in the range of `int`, `readUInt` returns a value `>= 0`, so never the
sentinel -1; for a successfully read line whose first byte is neither the
delimiter nor a null byte, `readChar` returns a byte that is not null. -/
theorem sentinels_unambiguous (BUF_SIZE INT_BITS : Nat) (d rest : List Byte)
    (b : Byte) (w rest1 : List Byte) (buf : Int → Byte) (led : Bool)
    (hne : d ≠ []) (hd : ∀ c ∈ d, isdigit c = true) (hn : d.length < BUF_SIZE)
    (hv : (decimalValue d : Int) < 2 ^ (INT_BITS - 1))
    (hb : b ≠ DELIM_CHAR) (hb0 : b ≠ 0) (hw : DELIM_CHAR ∉ w)
    (hn1 : (b :: w).length < BUF_SIZE) :
    (∃ v : Int, returned (readUInt BUF_SIZE INT_BITS
          { bufInput := buf, Master := d ++ DELIM_CHAR :: rest, ledPin := led }) = .ok v
        ∧ 0 ≤ v ∧ v ≠ -1)
    ∧ (∃ c : Byte, returned (readChar BUF_SIZE
          { bufInput := buf, Master := (b :: w) ++ DELIM_CHAR :: rest1, ledPin := led }) = .ok c
        ∧ c ≠ 0) := by
  constructor
  · refine ⟨(decimalValue d : Int), ?_, by positivity, by omega⟩
    rw [readUInt_on_line BUF_SIZE INT_BITS d rest buf led (digits_no_delim d hd) hn,
      digits_takeWhile d hd, atoi_digits INT_BITS d hne hd hv, returned]
  · have hbw : DELIM_CHAR ∉ b :: w := by
      intro h
      rcases List.mem_cons.mp h with h | h
      · exact hb h.symm
      · exact hw h
    refine ⟨b, ?_, hb0⟩
    rw [readChar, complete_on_line BUF_SIZE (b :: w) rest1 buf led hbw hn1]
    have h := storeLine_get (b :: w) buf 0 0 (by simp)
    simp only [Nat.cast_zero, add_zero, List.getElem_cons_zero] at h
    simp only [returned, h]

theorem sentinels_unambiguous_witness :
    (([52, 50] : List Byte) ≠ [] ∧ (∀ c ∈ ([52, 50] : List Byte), isdigit c = true)
      ∧ ([52, 50] : List Byte).length < 3 ∧ (decimalValue [52, 50] : Int) < 2 ^ (16 - 1)
      ∧ (53 : Byte) ≠ DELIM_CHAR ∧ (53 : Byte) ≠ 0 ∧ DELIM_CHAR ∉ ([] : List Byte)
      ∧ ((53 : Byte) :: []).length < 3)
    ∧ (∃ v : Int, returned (readUInt 3 16
          { bufInput := fun _ => 0, Master := [52, 50] ++ DELIM_CHAR :: [], ledPin := false })
          = .ok v
        ∧ 0 ≤ v ∧ v ≠ -1)
    ∧ (∃ c : Byte, returned (readChar 3
          { bufInput := fun _ => 0, Master := ((53 : Byte) :: []) ++ DELIM_CHAR :: [],
            ledPin := false }) = .ok c
        ∧ c ≠ 0) :=
  ⟨⟨by decide,
      fun c hc => by
        simp only [List.mem_cons, List.mem_singleton, List.not_mem_nil, or_false] at hc
        rcases hc with rfl | rfl <;> decide,
      by decide,
      by
        have h : decimalValue [52, 50] = 42 := by decide
        rw [h]
        norm_num,
      by decide, by decide, by decide, by decide⟩,
    sentinels_unambiguous 3 16 [52, 50] [] 53 [] [] (fun _ => 0) false (by decide)
      (fun c hc => by
        simp only [List.mem_cons, List.mem_singleton, List.not_mem_nil, or_false] at hc
        rcases hc with rfl | rfl <;> decide)
      (by decide)
      (by
        have h : decimalValue [52, 50] = 42 := by decide
        rw [h]
        norm_num)
      (by decide) (by decide) (by decide) (by decide)⟩

end Visualizer
